import Mathlib

/-!
Verification of the generation relay in `src/backend/main.py` (AI Website
Builder).  The development shallowly embeds the Python code over `List Char`:
Python strings become `List Char`, the Python string operations used by the
code (`in`, `split`, `replace`, `strip`, `lower`) become executable Lean
functions with the same semantics, the model-fallback loop becomes a
recursive function over the candidate list, and the external provider call
(`genai.GenerativeModel` + `generate_content`) becomes an explicit function
`attempt : String → Except (List Char) (List Char)` returning either the
raised exception's text or the response text.
-/

/-! ## Python string primitives -/

/-- The whitespace characters stripped by Python's `str.strip()` (ASCII
range; the code only ever strips ASCII model output around fences). -/
def pyIsSpace (c : Char) : Bool :=
  c = ' ' || c = '\t' || c = '\n' || c = '\r' || c = '\x0b' || c = '\x0c'

/-- Python `str.lstrip()` on characters. -/
def lstripCh (l : List Char) : List Char := l.dropWhile pyIsSpace

/-- Python `str.rstrip()` on characters. -/
def rstripCh (l : List Char) : List Char := (l.reverse.dropWhile pyIsSpace).reverse

/-- Python `str.strip()` on characters. -/
def stripCh (l : List Char) : List Char := rstripCh (lstripCh l)

/-- Python's substring containment test `pat in l`: some suffix of `l`
starts with `pat`. -/
def hasSub : List Char → List Char → Bool
  | [], pat => pat.isEmpty
  | c :: rest, pat => pat.isPrefixOf (c :: rest) || hasSub rest pat

/-- Fuelled scanner for Python `str.split(sep)`: scan left to right, cut at
each non-overlapping occurrence of `sep`.  The fuel only serves to make the
recursion structural; `pySplitCh` supplies fuel equal to the length of the
scanned list, which is always sufficient. -/
def splitGo (sep : List Char) : Nat → List Char → List (List Char)
  | 0, l => [l]
  | _ + 1, [] => [[]]
  | fuel + 1, c :: rest =>
    if sep.isPrefixOf (c :: rest) then
      [] :: splitGo sep fuel ((c :: rest).drop sep.length)
    else
      match splitGo sep fuel rest with
      | [] => [[c]]
      | p :: ps => (c :: p) :: ps

/-- Python `l.split(sep)` for a non-empty separator (the code only splits on
the literal separators `"CSS:"`, "three backticks" and tagged fences; Python
rejects an empty separator, and all lemmas below assume `sep ≠ []`). -/
def pySplitCh (sep l : List Char) : List (List Char) := splitGo sep l.length l

/-- Fuelled scanner for Python `str.replace(old, new)` (replace every
non-overlapping occurrence, scanning left to right). -/
def replaceGo (old new : List Char) : Nat → List Char → List Char
  | 0, l => l
  | _ + 1, [] => []
  | fuel + 1, c :: rest =>
    if old.isPrefixOf (c :: rest) then
      new ++ replaceGo old new fuel ((c :: rest).drop old.length)
    else
      c :: replaceGo old new fuel rest

/-- Python `l.replace(old, new)` for non-empty `old` (the code only replaces
the literal `"HTML:"`). -/
def pyReplaceCh (old new l : List Char) : List Char := replaceGo old new l.length l

/-- Everything after the first occurrence of `sep` (used to state the
spec's reading of "the second part is everything after the marker"). -/
def afterFirst (sep : List Char) : List Char → List Char
  | [] => []
  | c :: rest =>
    if sep.isPrefixOf (c :: rest) then (c :: rest).drop sep.length
    else afterFirst sep rest

/-- Python `sep.join(parts)`, the inverse of `split`. -/
def joinSep (sep : List Char) : List (List Char) → List Char
  | [] => []
  | [p] => p
  | p :: q :: ps => p ++ sep ++ joinSep sep (q :: ps)

/-! ## Constants of `generate_website` (src/backend/main.py) -/

/-- The markup section marker `"HTML:"` (line 165). -/
def htmlMarker : List Char := "HTML:".toList

/-- The stylesheet section marker `"CSS:"` (lines 163-164). -/
def cssMarker : List Char := "CSS:".toList

/-- The html-tagged fence opener (lines 169-170, 184-185). -/
def fenceHtml : List Char := "```html".toList

/-- The css-tagged fence opener (lines 176-177, 186-187). -/
def fenceCss : List Char := "```css".toList

/-- The plain fence delimiter (lines 170-181). -/
def fenceTag : List Char := "```".toList

/-- The transient-failure allow-list of line 136. -/
def transientKeywords : List (List Char) :=
  ["503".toList, "overloaded".toList, "unavailable".toList,
   "not found".toList, "404".toList]

/-- Python `str.lower()` (ASCII case mapping, which covers every keyword in
the allow-list and every ASCII error text). -/
def pyLowerCh (l : List Char) : List Char := l.map Char.toLower

/-- Line 136: `any(keyword in error_str.lower() for keyword in [...])`. -/
def isTransient (err : List Char) : Bool :=
  transientKeywords.any (fun k => hasSub (pyLowerCh err) k)

/-- The candidate model identifiers, in preference order (lines 47-52). -/
def models_to_try : List String :=
  ["gemini-2.0-flash-exp", "gemini-1.5-flash-latest",
   "gemini-1.5-flash", "gemini-1.5-pro-latest"]

/-! ## The model fallback loop (lines 106-152) -/

/-- How the `for model_name in models_to_try` loop exits: `break` with a
response (line 128), `raise e` with a non-transient error (line 142), or
falling through to the loop's `else` clause with the recorded
`last_error` (lines 143-149). -/
inductive LoopExit where
  | broke (resp : List Char)
  | raised (err : List Char)
  | exhausted (lastError : Option (List Char))
deriving DecidableEq

/-- The loop of lines 109-142.  `attempt m` abstracts the provider calls
(`genai.GenerativeModel` construction plus `model.generate_content`) for
candidate `m`: `.ok r` is a response with text `r`, `.error e` a raised
exception with text `str(e) = e`.  The first component of the result is the
trace of candidates actually attempted, in order; the `time.sleep(0.5)`
pause and the `print` logging have no bearing on the data flow and are
elided. -/
def loopRun (attempt : String → Except (List Char) (List Char)) :
    List String → Option (List Char) → List String × LoopExit
  | [], lastError => ([], .exhausted lastError)
  | m :: rest, _lastError =>
    match attempt m with
    | .ok r => ([m], .broke r)
    | .error e =>
      if isTransient e then
        (m :: (loopRun attempt rest (some e)).1, (loopRun attempt rest (some e)).2)
      else ([m], .raised e)

/-- The four ways `generate_website` leaves the resolver section: reach the
parsing phase with a response, propagate a non-transient provider error
(an unhandled exception, effectively a 500), raise the 503
`HTTPException` of lines 146-149, or raise the 500 of line 152. -/
inductive ResolveOutcome where
  | done (text : List Char)
  | fatal (err : List Char)
  | unavailable503 (detail : List Char)
  | noContent500
deriving DecidableEq

/-- The fixed part of the 503 detail string of line 148. -/
def unavailMsg : List Char :=
  ("All Gemini models are currently unavailable. Please try again in a few moments. Last error: ").toList

/-- Lines 109-152: run the loop on `models_to_try` with `last_error = None`,
then the loop's `else` clause (503 when a transient error was recorded) and
the `if not response` check (500 when no response was ever assigned). -/
def generateResolve (attempt : String → Except (List Char) (List Char)) :
    ResolveOutcome :=
  match (loopRun attempt models_to_try none).2 with
  | .broke r => .done r
  | .raised e => .fatal e
  | .exhausted (some e) => .unavailable503 (unavailMsg ++ e)
  | .exhausted none => .noContent500

/-! ## Prompt construction (lines 96-104) -/

/-- The style table of lines 96-101. -/
def style_descriptions : List (String × String) :=
  [("modern", "with bold vibrant colors (#667eea to #764ba2 gradients), large typography, card-based layouts, lots of whitespace, glassmorphism effects"),
   ("minimal", "with elegant black and white palette, ultra-clean layout, generous negative space, sophisticated typography, accent color (#0066ff)"),
   ("professional", "with corporate blue gradients (#4facfe to #00f2fe), structured layout, polished cards, business-appropriate design"),
   ("creative", "with bold rainbow gradients (#f093fb to #f5576c), playful animations, asymmetric layouts, artistic flair, vibrant energy")]

/-- Line 103: `style_descriptions.get(request.style, '')`. -/
def styleGet (style : String) : String := (style_descriptions.lookup style).getD ""

/-- The part of the f-string of line 104 before `request.prompt`. -/
def promptHead (style : String) : String :=
  "Create a stunning " ++ style ++ " style website " ++ styleGet style ++ ": "

/-- The part of the f-string of line 104 after `request.prompt`. -/
def promptTail : String :=
  ". Make it visually impressive with rich CSS styling, beautiful colors, and modern design. NO external images - use colored divs and gradients for visual elements."

/-- Line 104: the user prompt f-string. -/
def user_prompt (promptText style : String) : String :=
  "Create a stunning " ++ style ++ " style website " ++ styleGet style ++ ": "
    ++ promptText
    ++ ". Make it visually impressive with rich CSS styling, beautiful colors, and modern design. NO external images - use colored divs and gradients for visual elements."

/-! ## Fragment extraction (lines 159-189) -/

/-- Line 164: `parts = content.split("CSS:")`. -/
def parseParts (content : List Char) : List (List Char) := pySplitCh cssMarker content

/-- Line 165: `html_section = parts[0].replace("HTML:", "").strip()`. -/
def html_section (content : List Char) : List Char :=
  stripCh (pyReplaceCh htmlMarker [] ((parseParts content).getD 0 []))

/-- Line 166: `css_section = parts[1].strip()`. -/
def css_section (content : List Char) : List Char :=
  stripCh ((parseParts content).getD 1 [])

/-- The fence-interior expression `sec.split(tagged)[1].split("```")[0].strip()`
of lines 170, 172, 177, 179, 185, 187. -/
def fenceInner (tagged sec : List Char) : List Char :=
  stripCh ((pySplitCh fenceTag ((pySplitCh tagged sec).getD 1 [])).getD 0 [])

/-- Lines 159-189: extract `(html, css)` from the raw response text. -/
def parseContent (content : List Char) : List Char × List Char :=
  if hasSub content htmlMarker && hasSub content cssMarker then
    let hSec := html_section content
    let cSec := css_section content
    let html :=
      if hasSub hSec fenceHtml then fenceInner fenceHtml hSec
      else if hasSub hSec fenceTag then fenceInner fenceTag hSec
      else hSec
    let css :=
      if hasSub cSec fenceCss then fenceInner fenceCss cSec
      else if hasSub cSec fenceTag then fenceInner fenceTag cSec
      else cSec
    (html, css)
  else
    let html := if hasSub content fenceHtml then fenceInner fenceHtml content else []
    let css := if hasSub content fenceCss then fenceInner fenceCss content else []
    (if html = [] then content else html, css)

/-- The same extraction with every Python list indexing made explicit:
`xs[i]` becomes `xs[i]?` and the steps are chained with `Option.bind`,
so a Python `IndexError` surfaces as `none`. -/
def fenceInnerChecked (tagged sec : List Char) : Option (List Char) :=
  ((pySplitCh tagged sec)[1]?).bind fun x =>
    ((pySplitCh fenceTag x)[0]?).bind fun y =>
      some (stripCh y)

/-- Lines 159-189 again, with `parts[0]`, `parts[1]` and the fence indexing
checked; used to state that the extraction never hits an out-of-bounds
index. -/
def parseContentChecked (content : List Char) : Option (List Char × List Char) :=
  if hasSub content htmlMarker && hasSub content cssMarker then
    ((parseParts content)[0]?).bind fun p0 =>
      ((parseParts content)[1]?).bind fun p1 =>
        (if hasSub (stripCh (pyReplaceCh htmlMarker [] p0)) fenceHtml then
            fenceInnerChecked fenceHtml (stripCh (pyReplaceCh htmlMarker [] p0))
          else if hasSub (stripCh (pyReplaceCh htmlMarker [] p0)) fenceTag then
            fenceInnerChecked fenceTag (stripCh (pyReplaceCh htmlMarker [] p0))
          else some (stripCh (pyReplaceCh htmlMarker [] p0))).bind fun html =>
          (if hasSub (stripCh p1) fenceCss then fenceInnerChecked fenceCss (stripCh p1)
            else if hasSub (stripCh p1) fenceTag then fenceInnerChecked fenceTag (stripCh p1)
            else some (stripCh p1)).bind fun css =>
            some (html, css)
  else
    (if hasSub content fenceHtml then fenceInnerChecked fenceHtml content
      else some []).bind fun html =>
      (if hasSub content fenceCss then fenceInnerChecked fenceCss content
        else some []).bind fun css =>
        some (if html = [] then content else html, css)

/-- The raw text shape requested by the system instruction of lines 54-65:
`HTML:`, an html-tagged fenced block, a blank line, `CSS:`, a css-tagged
fenced block. -/
def docForm (h c : List Char) : List Char :=
  "HTML:\n```html\n".toList ++ h ++ "\n```\n\nCSS:\n```css\n".toList ++ c ++ "\n```".toList

/-! ## Bridges between the executable primitives and Mathlib's order on lists -/

theorem isPrefixOf_eq : ∀ (p l : List Char), p.isPrefixOf l = true ↔ p <+: l
  | [], l => by simp [List.isPrefixOf]
  | a :: as, [] => by simp [List.isPrefixOf]
  | a :: as, b :: bs => by
    show (a == b && as.isPrefixOf bs) = true ↔ _
    rw [Bool.and_eq_true, beq_iff_eq, isPrefixOf_eq as bs, List.cons_prefix_cons]

theorem hasSub_iff : ∀ (l pat : List Char),
    hasSub l pat = true ↔ ∃ t, t <:+ l ∧ pat <+: t
  | [], pat => by
    simp only [hasSub, List.isEmpty_iff]
    constructor
    · rintro rfl; exact ⟨[], List.suffix_refl [], List.nil_prefix⟩
    · rintro ⟨t, ht, hp⟩
      have : t = [] := List.suffix_nil.mp ht
      subst this
      exact List.prefix_nil.mp hp
  | c :: rest, pat => by
    simp only [hasSub, Bool.or_eq_true, isPrefixOf_eq, hasSub_iff rest pat]
    constructor
    · rintro (hp | ⟨t, ht, hp⟩)
      · exact ⟨c :: rest, List.suffix_refl _, hp⟩
      · exact ⟨t, ht.trans (List.suffix_cons c rest), hp⟩
    · rintro ⟨t, ht, hp⟩
      rcases List.suffix_cons_iff.mp ht with rfl | ht'
      · exact Or.inl hp
      · exact Or.inr ⟨t, ht', hp⟩

theorem hasSub_of_pre {l pat : List Char} (h : pat <+: l) : hasSub l pat = true :=
  (hasSub_iff l pat).mpr ⟨l, List.suffix_refl l, h⟩

theorem hasSub_of_mid {l pat : List Char} (h : pat <:+: l) : hasSub l pat = true := by
  rcases List.infix_iff_prefix_suffix.mp h with ⟨t, hp, hs⟩
  exact (hasSub_iff l pat).mpr ⟨t, hs, hp⟩

/-- Splitting a prefix relation over an append: the prefix lands inside the
first block, or it covers the first block and continues into the second. -/
theorem pre_append_cases {p x y : List Char} (h : p <+: x ++ y) :
    (p.length ≤ x.length ∧ p <+: x) ∨
      (x.length ≤ p.length ∧ p.take x.length = x ∧ p.drop x.length <+: y) := by
  have hp := List.prefix_iff_eq_take.mp h
  by_cases hle : p.length ≤ x.length
  · left
    refine ⟨hle, ?_⟩
    rw [List.take_append_eq_append_take, Nat.sub_eq_zero_of_le hle,
      List.take_zero, List.append_nil] at hp
    exact hp ▸ List.take_prefix p.length x
  · right
    have hxe : x.length ≤ p.length := Nat.le_of_not_le hle
    constructor
    · exact hxe
    constructor
    · rw [hp, List.take_take, Nat.min_eq_left hxe, List.take_append_eq_append_take,
        Nat.sub_self, List.take_zero, List.append_nil, List.take_length]
    · rw [hp, List.drop_take, List.drop_append_eq_append_drop, List.drop_length,
        Nat.sub_self, List.drop_zero, List.nil_append]
      exact List.take_prefix _ y

/-- A non-empty suffix of `x ++ [c]` ends with `c`. -/
theorem suf_last {t x : List Char} {c : Char} (h : t <:+ x ++ [c]) (hne : t ≠ []) :
    t.getLast? = some c := by
  rcases h with ⟨s, hs⟩
  rcases List.eq_nil_or_concat t with rfl | ⟨t', d, hcon⟩
  · exact absurd rfl hne
  · rw [List.concat_eq_append] at hcon
    subst hcon
    have h2 : s ++ (t' ++ [d]) = (s ++ t') ++ [d] := (List.append_assoc s t' [d]).symm
    rw [h2] at hs
    have h1 : ((s ++ t') ++ [d]).getLast? = some d := List.getLast?_concat _
    rw [hs, List.getLast?_concat] at h1
    rw [List.getLast?_concat]
    exact h1.symm

/-- Straddle killer, left side: if no proper non-empty front of `sep` ends in
`c`, then no such front is a suffix of a list ending in `c`. -/
theorem takeKill (sep x : List Char) (c : Char)
    (hc : ∀ k, k < sep.length → 0 < k → ¬ (sep.take k).getLast? = some c) :
    ∀ k, k < sep.length → 0 < k → ¬ ((sep.take k) <:+ (x ++ [c])) := by
  intro k h1 h2 hsuf
  have hne : sep.take k ≠ [] := by
    have : (sep.take k).length = k := by
      rw [List.length_take]; exact Nat.min_eq_left (Nat.le_of_lt h1)
    intro he; rw [he] at this; simp at this; omega
  exact hc k h1 h2 (suf_last hsuf hne)

/-- Straddle killer, right side: if no proper non-empty back of `sep` starts
with `c`, then no such back is a prefix of a list starting with `c`. -/
theorem dropKill (sep y : List Char) (c : Char)
    (hc : ∀ k, k < sep.length → 0 < k → ¬ (sep.drop k).head? = some c) :
    ∀ k, k < sep.length → 0 < k → ¬ ((sep.drop k) <+: (c :: y)) := by
  intro k h1 h2 hpre
  rcases hpre with ⟨t, ht⟩
  have hne : sep.drop k ≠ [] := by
    intro he
    have : (sep.drop k).length = 0 := by rw [he]; rfl
    rw [List.length_drop] at this; omega
  have : (sep.drop k ++ t).head? = (sep.drop k).head? := List.head?_append_of_ne_nil _ hne
  rw [ht] at this
  exact hc k h1 h2 this.symm

/-- Straddle killer for an empty right context. -/
theorem dropKillNil (sep : List Char) :
    ∀ k, k < sep.length → ¬ ((sep.drop k) <+: ([] : List Char)) := by
  intro k h1 hpre
  have := List.prefix_nil.mp hpre
  have h2 : (sep.drop k).length = 0 := by rw [this]; rfl
  rw [List.length_drop] at h2; omega

/-- Decomposing an occurrence across an append: the occurrence lies in the
left block, in the right block, or straddles the boundary. -/
theorem hasSub_append_cases (sep : List Char) :
    ∀ (x y : List Char), hasSub (x ++ y) sep = true →
    hasSub x sep = true ∨ hasSub y sep = true ∨
      ∃ k, k < sep.length ∧ 0 < k ∧ (sep.take k) <:+ x ∧ (sep.drop k) <+: y
  | [], y => by
    intro h
    rw [List.nil_append] at h
    exact Or.inr (Or.inl h)
  | c :: xs, y => by
    intro h
    have hsplit : (c :: xs) ++ y = c :: (xs ++ y) := rfl
    rw [hsplit] at h
    simp only [hasSub, Bool.or_eq_true] at h
    rcases h with hp | htail
    · have hp' : sep <+: (c :: xs) ++ y := by
        rw [hsplit]; exact (isPrefixOf_eq _ _).mp hp
      rcases pre_append_cases hp' with ⟨hle, hpre⟩ | ⟨hge, htake, hdrop⟩
      · exact Or.inl (hasSub_of_pre hpre)
      · by_cases heq : (c :: xs).length = sep.length
        · have : sep.take (c :: xs).length = sep := by rw [heq, List.take_length]
          rw [this] at htake
          exact Or.inl (hasSub_of_pre (htake ▸ List.prefix_refl sep))
        · refine Or.inr (Or.inr ⟨(c :: xs).length, ?_, ?_, ?_, ?_⟩)
          · omega
          · simp
          · rw [htake]
          · exact hdrop
    · rcases hasSub_append_cases sep xs y htail with hx | hy | ⟨k, h1, h2, h3, h4⟩
      · refine Or.inl ?_
        simp only [hasSub, Bool.or_eq_true]
        exact Or.inr hx
      · exact Or.inr (Or.inl hy)
      · exact Or.inr (Or.inr ⟨k, h1, h2, h3.trans (List.suffix_cons c xs), h4⟩)

/-! ## Computation rules for the split and replace scanners -/

theorem splitGo_ne_nil (sep : List Char) : ∀ fuel l, splitGo sep fuel l ≠ []
  | 0, l => by simp [splitGo]
  | _ + 1, [] => by simp [splitGo]
  | fuel + 1, c :: rest => by
    simp only [splitGo]
    split
    · simp
    · split <;> simp

theorem pySplitCh_ne_nil (sep l : List Char) : pySplitCh sep l ≠ [] :=
  splitGo_ne_nil sep l.length l

/-- With enough fuel, the fuelled scanner computes `pySplitCh`. -/
theorem splitGo_fuel (sep : List Char) (hsep : sep ≠ []) :
    ∀ fuel l, l.length ≤ fuel → splitGo sep fuel l = splitGo sep l.length l := by
  have hpos : 0 < sep.length := List.length_pos.mpr hsep
  intro fuel
  induction fuel using Nat.strong_induction_on with
  | _ fuel ih =>
    intro l hl
    cases fuel with
    | zero =>
      have hnil : l = [] := by
        cases l with
        | nil => rfl
        | cons c rest => simp at hl
      subst hnil; rfl
    | succ fuel =>
      cases l with
      | nil => rfl
      | cons c rest =>
        have hrest : rest.length ≤ fuel := by simp at hl; omega
        by_cases hp : sep.isPrefixOf (c :: rest) = true
        · have hdl : ((c :: rest).drop sep.length).length ≤ rest.length := by
            rw [List.length_drop]; simp; omega
          simp only [List.length_cons, splitGo, hp, if_true]
          congr 1
          rw [ih fuel (Nat.lt_succ_self fuel) _ (Nat.le_trans hdl hrest),
            ih rest.length (by omega) _ hdl]
        · simp only [List.length_cons, splitGo, hp, if_false]
          rw [ih fuel (Nat.lt_succ_self fuel) rest hrest]
          simp

theorem pySplitCh_pos {sep : List Char} (hsep : sep ≠ []) {c : Char} {rest : List Char}
    (hp : sep.isPrefixOf (c :: rest) = true) :
    pySplitCh sep (c :: rest) = [] :: pySplitCh sep ((c :: rest).drop sep.length) := by
  have hpos : 0 < sep.length := List.length_pos.mpr hsep
  show splitGo sep (c :: rest).length (c :: rest) = _
  simp only [List.length_cons, splitGo, hp, if_true]
  congr 1
  show _ = splitGo sep ((c :: rest).drop sep.length).length _
  apply splitGo_fuel sep hsep
  rw [List.length_drop]; simp; omega

theorem pySplitCh_neg {sep : List Char} {c : Char} {rest : List Char}
    (hp : ¬ sep.isPrefixOf (c :: rest) = true) :
    pySplitCh sep (c :: rest) =
      match pySplitCh sep rest with
      | [] => [[c]]
      | p :: ps => (c :: p) :: ps := by
  show splitGo sep (c :: rest).length (c :: rest) = _
  simp only [List.length_cons, splitGo, hp, if_false]
  rfl

/-- With enough fuel, the fuelled replacer computes `pyReplaceCh`. -/
theorem replaceGo_fuel (old new : List Char) (hold : old ≠ []) :
    ∀ fuel l, l.length ≤ fuel → replaceGo old new fuel l = replaceGo old new l.length l := by
  have hpos : 0 < old.length := List.length_pos.mpr hold
  intro fuel
  induction fuel using Nat.strong_induction_on with
  | _ fuel ih =>
    intro l hl
    cases fuel with
    | zero =>
      have hnil : l = [] := by
        cases l with
        | nil => rfl
        | cons c rest => simp at hl
      subst hnil; rfl
    | succ fuel =>
      cases l with
      | nil => rfl
      | cons c rest =>
        have hrest : rest.length ≤ fuel := by simp at hl; omega
        by_cases hp : old.isPrefixOf (c :: rest) = true
        · have hdl : ((c :: rest).drop old.length).length ≤ rest.length := by
            rw [List.length_drop]; simp; omega
          simp only [List.length_cons, replaceGo, hp, if_true]
          congr 1
          rw [ih fuel (Nat.lt_succ_self fuel) _ (Nat.le_trans hdl hrest),
            ih rest.length (by omega) _ hdl]
        · simp only [List.length_cons, replaceGo, hp, if_false]
          rw [ih fuel (Nat.lt_succ_self fuel) rest hrest]
          simp

theorem pyReplaceCh_pos {old new : List Char} (hold : old ≠ []) {c : Char} {rest : List Char}
    (hp : old.isPrefixOf (c :: rest) = true) :
    pyReplaceCh old new (c :: rest) = new ++ pyReplaceCh old new ((c :: rest).drop old.length) := by
  have hpos : 0 < old.length := List.length_pos.mpr hold
  show replaceGo old new (c :: rest).length (c :: rest) = _
  simp only [List.length_cons, replaceGo, hp, if_true]
  congr 1
  show _ = replaceGo old new ((c :: rest).drop old.length).length _
  apply replaceGo_fuel old new hold
  rw [List.length_drop]; simp; omega

theorem pyReplaceCh_neg {old new : List Char} {c : Char} {rest : List Char}
    (hp : ¬ old.isPrefixOf (c :: rest) = true) :
    pyReplaceCh old new (c :: rest) = c :: pyReplaceCh old new rest := by
  show replaceGo old new (c :: rest).length (c :: rest) = _
  simp only [List.length_cons, replaceGo, hp, if_false]
  rfl

/-! ## Occurrence-free and boundary splits -/

theorem hasSub_cons_false {c : Char} {rest pat : List Char}
    (h : hasSub (c :: rest) pat = false) :
    ¬ pat.isPrefixOf (c :: rest) = true ∧ hasSub rest pat = false := by
  constructor
  · intro hp
    have hx : hasSub (c :: rest) pat = true := by simp [hasSub, hp]
    rw [h] at hx; exact Bool.noConfusion hx
  · cases hr : hasSub rest pat
    · rfl
    · exfalso
      have hx : hasSub (c :: rest) pat = true := by simp [hasSub, hr]
      rw [h] at hx; exact Bool.noConfusion hx

theorem isEmpty_false_of_ne_nil {l : List Char} (h : l ≠ []) : l.isEmpty = false := by
  cases l with
  | nil => exact absurd rfl h
  | cons c rest => rfl

/-- Splitting an occurrence-free text yields a single part. -/
theorem pySplit_single {sep : List Char} (hsep : sep ≠ []) :
    ∀ (b : List Char), hasSub b sep = false → pySplitCh sep b = [b]
  | [], _ => rfl
  | c :: rest, hb => by
    obtain ⟨hp, hr⟩ := hasSub_cons_false hb
    rw [pySplitCh_neg hp, pySplit_single hsep rest hr]

/-- Splitting at a separator sitting at the front of the text. -/
theorem pySplit_at_sep {sep : List Char} (hsep : sep ≠ []) (b : List Char) :
    pySplitCh sep (sep ++ b) = [] :: pySplitCh sep b := by
  obtain ⟨s0, sep', rfl⟩ : ∃ s0 sep', sep = s0 :: sep' := by
    cases sep with
    | nil => exact absurd rfl hsep
    | cons s0 sep' => exact ⟨s0, sep', rfl⟩
  have hp : (s0 :: sep').isPrefixOf (s0 :: (sep' ++ b)) = true :=
    (isPrefixOf_eq _ _).mpr ⟨b, rfl⟩
  have hcons : (s0 :: sep') ++ b = s0 :: (sep' ++ b) := rfl
  rw [hcons, pySplitCh_pos hsep hp]
  congr 2
  show ((s0 :: sep') ++ b).drop (s0 :: sep').length = b
  exact List.drop_left _ _

/-- Splitting `a ++ sep ++ b` when no occurrence of `sep` starts inside `a`:
the part before the separator is exactly `a`. -/
theorem pySplit_boundary {sep : List Char} (hsep : sep ≠ []) :
    ∀ (a b : List Char), hasSub a sep = false →
      (∀ k, k < sep.length → 0 < k → ¬ ((sep.take k) <:+ a)) →
      pySplitCh sep (a ++ sep ++ b) = a :: pySplitCh sep b
  | [], b, _, _ => by
    rw [List.nil_append]
    exact pySplit_at_sep hsep b
  | c :: a', b, ha, hstr => by
    have hnp : ¬ sep.isPrefixOf ((c :: a') ++ sep ++ b) = true := by
      intro hp
      have hp' : sep <+: (c :: a') ++ (sep ++ b) := by
        have hx := (isPrefixOf_eq _ _).mp hp
        rwa [List.append_assoc] at hx
      rcases pre_append_cases hp' with ⟨_, hpre⟩ | ⟨hge, htake, _⟩
      · have hx := hasSub_of_pre hpre
        rw [ha] at hx; exact Bool.noConfusion hx
      · by_cases heq : (c :: a').length = sep.length
        · have hsep_eq : sep.take (c :: a').length = sep := by rw [heq, List.take_length]
          rw [hsep_eq] at htake
          have hpre2 : sep <+: c :: a' := by rw [htake]
          have hx := hasSub_of_pre hpre2
          rw [ha] at hx; exact Bool.noConfusion hx
        · have hlt : (c :: a').length < sep.length := Nat.lt_of_le_of_ne hge heq
          have hsuf : sep.take (c :: a').length <:+ c :: a' := by
            rw [htake]
          exact hstr (c :: a').length hlt (by simp) hsuf
    have hshape : (c :: a') ++ sep ++ b = c :: (a' ++ sep ++ b) := by simp
    rw [hshape] at hnp ⊢
    rw [pySplitCh_neg hnp]
    have ha' : hasSub a' sep = false := (hasSub_cons_false ha).2
    have hstr' : ∀ k, k < sep.length → 0 < k → ¬ ((sep.take k) <:+ a') := by
      intro k h1 h2 hsuf
      exact hstr k h1 h2 (hsuf.trans (List.suffix_cons c a'))
    rw [pySplit_boundary hsep a' b ha' hstr']

/-- Replacing in an occurrence-free text is the identity. -/
theorem pyReplace_single {old new : List Char} (hold : old ≠ []) :
    ∀ (l : List Char), hasSub l old = false → pyReplaceCh old new l = l
  | [], _ => rfl
  | c :: rest, hb => by
    obtain ⟨hp, hr⟩ := hasSub_cons_false hb
    rw [pyReplaceCh_neg hp, pyReplace_single hold rest hr]

/-- Replacing an occurrence sitting at the front of the text. -/
theorem pyReplace_at_old {old new : List Char} (hold : old ≠ []) (b : List Char) :
    pyReplaceCh old new (old ++ b) = new ++ pyReplaceCh old new b := by
  obtain ⟨s0, old', rfl⟩ : ∃ s0 old', old = s0 :: old' := by
    cases old with
    | nil => exact absurd rfl hold
    | cons s0 old' => exact ⟨s0, old', rfl⟩
  have hp : (s0 :: old').isPrefixOf (s0 :: (old' ++ b)) = true :=
    (isPrefixOf_eq _ _).mpr ⟨b, rfl⟩
  have hcons : (s0 :: old') ++ b = s0 :: (old' ++ b) := rfl
  rw [hcons, pyReplaceCh_pos hold hp]
  congr 2
  show ((s0 :: old') ++ b).drop (s0 :: old').length = b
  exact List.drop_left _ _

/-! ## Strip lemmas -/

theorem lstripCh_cons_ws {c : Char} (hc : pyIsSpace c = true) (l : List Char) :
    lstripCh (c :: l) = lstripCh l := by
  simp [lstripCh, List.dropWhile_cons, hc]

theorem lstripCh_cons_not_ws {c : Char} (hc : pyIsSpace c = false) (l : List Char) :
    lstripCh (c :: l) = c :: l := by
  simp [lstripCh, List.dropWhile_cons, hc]

theorem rstripCh_append_ws {c : Char} (hc : pyIsSpace c = true) (l : List Char) :
    rstripCh (l ++ [c]) = rstripCh l := by
  simp [rstripCh, List.reverse_append, List.dropWhile_cons, hc]

theorem rstripCh_append_not_ws {c : Char} (hc : pyIsSpace c = false) (l : List Char) :
    rstripCh (l ++ [c]) = l ++ [c] := by
  simp [rstripCh, List.reverse_append, List.dropWhile_cons, hc]

theorem stripCh_cons_ws {c : Char} (hc : pyIsSpace c = true) (l : List Char) :
    stripCh (c :: l) = stripCh l := by
  simp [stripCh, lstripCh_cons_ws hc]

theorem stripCh_append_ws {c : Char} (hc : pyIsSpace c = true) (l : List Char) :
    stripCh (l ++ [c]) = stripCh l := by
  unfold stripCh lstripCh
  rw [List.dropWhile_append]
  by_cases he : (l.dropWhile pyIsSpace).isEmpty
  · rw [if_pos he]
    have h1 : List.dropWhile pyIsSpace [c] = [] := by
      simp [List.dropWhile_cons, hc]
    have h2 : l.dropWhile pyIsSpace = [] := by
      cases hq : l.dropWhile pyIsSpace with
      | nil => rfl
      | cons x xs => rw [hq] at he; exact Bool.noConfusion he
    rw [h1, h2]
  · rw [if_neg he]
    exact rstripCh_append_ws hc _

/-- Stripping text with non-whitespace first and last characters is the
identity. -/
theorem stripCh_solid {c d : Char} (hc : pyIsSpace c = false) (hd : pyIsSpace d = false)
    (l : List Char) : stripCh (c :: (l ++ [d])) = c :: (l ++ [d]) := by
  unfold stripCh
  rw [lstripCh_cons_not_ws hc]
  have hsh : c :: (l ++ [d]) = (c :: l) ++ [d] := rfl
  rw [hsh, rstripCh_append_not_ws hd]

/-! ## Shape of the split parts -/

/-- A text containing the separator splits into at least two parts. -/
theorem pySplit_len2 {sep : List Char} (hsep : sep ≠ []) :
    ∀ (l : List Char), hasSub l sep = true → 2 ≤ (pySplitCh sep l).length := by
  intro l
  induction l with
  | nil =>
    intro h
    have hx : sep.isEmpty = true := h
    rw [List.isEmpty_iff] at hx
    exact absurd hx hsep
  | cons c rest ih =>
    intro h
    by_cases hp : sep.isPrefixOf (c :: rest) = true
    · rw [pySplitCh_pos hsep hp]
      cases hq : pySplitCh sep ((c :: rest).drop sep.length) with
      | nil => exact absurd hq (pySplitCh_ne_nil sep _)
      | cons p ps => simp
    · have hr : hasSub rest sep = true := by
        have hh : sep.isPrefixOf (c :: rest) = true ∨ hasSub rest sep = true := by
          have hh0 : (sep.isPrefixOf (c :: rest) || hasSub rest sep) = true := h
          simpa using hh0
        rcases hh with hx | hx
        · exact absurd hx hp
        · exact hx
      rw [pySplitCh_neg hp]
      cases hq : pySplitCh sep rest with
      | nil => exact absurd hq (pySplitCh_ne_nil sep rest)
      | cons p ps =>
        have h2 := ih hr
        rw [hq] at h2
        simp at h2 ⊢
        omega

/-- `sep.join(l.split(sep)) = l`. -/
theorem pySplit_join {sep : List Char} (hsep : sep ≠ []) (l : List Char) :
    joinSep sep (pySplitCh sep l) = l := by
  have hpos : 0 < sep.length := List.length_pos.mpr hsep
  suffices H : ∀ n (l : List Char), l.length ≤ n → joinSep sep (pySplitCh sep l) = l from
    H l.length l (Nat.le_refl _)
  intro n
  induction n using Nat.strong_induction_on with
  | _ n ih =>
    intro l hl
    cases l with
    | nil => rfl
    | cons c rest =>
      have hln : rest.length + 1 ≤ n := by simpa using hl
      by_cases hp : sep.isPrefixOf (c :: rest) = true
      · rw [pySplitCh_pos hsep hp]
        cases hq : pySplitCh sep ((c :: rest).drop sep.length) with
        | nil => exact absurd hq (pySplitCh_ne_nil sep _)
        | cons p ps =>
          have hj : joinSep sep ([] :: p :: ps) = [] ++ sep ++ joinSep sep (p :: ps) := rfl
          rw [hj, ← hq]
          have hdlen : ((c :: rest).drop sep.length).length < n := by
            rw [List.length_drop]
            simp only [List.length_cons]
            omega
          rw [ih ((c :: rest).drop sep.length).length hdlen _ (Nat.le_refl _)]
          obtain ⟨t, ht⟩ := (isPrefixOf_eq _ _).mp hp
          have hdt : (c :: rest).drop sep.length = t := by
            rw [← ht]; exact List.drop_left _ _
          rw [hdt, List.nil_append, ht]
      · rw [pySplitCh_neg hp]
        cases hq : pySplitCh sep rest with
        | nil => exact absurd hq (pySplitCh_ne_nil sep rest)
        | cons p ps =>
          have hrec : joinSep sep (p :: ps) = rest := by
            rw [← hq]
            exact ih rest.length (by omega) rest (Nat.le_refl _)
          cases ps with
          | nil =>
            have h1 : joinSep sep [c :: p] = c :: p := rfl
            have h2 : joinSep sep [p] = p := rfl
            rw [h2] at hrec
            rw [h1, hrec]
          | cons q ps' =>
            have h1 : joinSep sep ((c :: p) :: q :: ps') =
                (c :: p) ++ sep ++ joinSep sep (q :: ps') := rfl
            have h2 : joinSep sep (p :: q :: ps') =
                p ++ sep ++ joinSep sep (q :: ps') := rfl
            rw [h2] at hrec
            rw [h1, ← hrec]
            simp

/-- The first split part is a prefix of the text. -/
theorem pySplit_head_pre {sep : List Char} (hsep : sep ≠ []) :
    ∀ (l : List Char) {p : List Char} {ps : List (List Char)},
      pySplitCh sep l = p :: ps → p <+: l := by
  intro l
  induction l with
  | nil =>
    intro p ps h
    have h0 : pySplitCh sep [] = [[]] := rfl
    rw [h0] at h
    injection h with h1 _
    exact h1 ▸ List.nil_prefix
  | cons c rest ih =>
    intro p ps h
    by_cases hp : sep.isPrefixOf (c :: rest) = true
    · rw [pySplitCh_pos hsep hp] at h
      injection h with h1 _
      exact h1 ▸ List.nil_prefix
    · rw [pySplitCh_neg hp] at h
      cases hq : pySplitCh sep rest with
      | nil => exact absurd hq (pySplitCh_ne_nil sep rest)
      | cons p' ps' =>
        rw [hq] at h
        injection h with h1 _
        rw [← h1]
        exact List.cons_prefix_cons.mpr ⟨rfl, ih hq⟩

/-- No split part contains the separator. -/
theorem pySplit_clean {sep : List Char} (hsep : sep ≠ []) :
    ∀ (l : List Char), ∀ p ∈ pySplitCh sep l, hasSub p sep = false := by
  have hnilsub : hasSub [] sep = false := by
    show sep.isEmpty = false
    exact isEmpty_false_of_ne_nil hsep
  suffices H : ∀ n (l : List Char), l.length ≤ n → ∀ p ∈ pySplitCh sep l, hasSub p sep = false from
    fun l => H l.length l (Nat.le_refl _)
  intro n
  induction n using Nat.strong_induction_on with
  | _ n ih =>
    intro l hl p hmem
    cases l with
    | nil =>
      have h0 : pySplitCh sep [] = [[]] := rfl
      rw [h0] at hmem
      simp at hmem
      rw [hmem]
      exact hnilsub
    | cons c rest =>
      have hln : rest.length + 1 ≤ n := by simpa using hl
      by_cases hp : sep.isPrefixOf (c :: rest) = true
      · rw [pySplitCh_pos hsep hp] at hmem
        rcases List.mem_cons.mp hmem with rfl | hmem'
        · exact hnilsub
        · have hdlen : ((c :: rest).drop sep.length).length < n := by
            rw [List.length_drop]
            simp only [List.length_cons]
            have hpos : 0 < sep.length := List.length_pos.mpr hsep
            omega
          exact ih _ hdlen _ (Nat.le_refl _) p hmem'
      · rw [pySplitCh_neg hp] at hmem
        cases hq : pySplitCh sep rest with
        | nil => exact absurd hq (pySplitCh_ne_nil sep rest)
        | cons p' ps' =>
          rw [hq] at hmem
          rcases List.mem_cons.mp hmem with rfl | hmem'
          · have hps : hasSub p' sep = false :=
              ih rest.length (by omega) rest (Nat.le_refl _) p' (hq ▸ List.mem_cons_self p' ps')
            have hpre : sep.isPrefixOf (c :: p') = false := by
              cases hb : sep.isPrefixOf (c :: p') with
              | false => rfl
              | true =>
                exfalso
                have h1 : sep <+: c :: p' := (isPrefixOf_eq _ _).mp hb
                have h2 : p' <+: rest := pySplit_head_pre hsep rest hq
                have h3 : c :: p' <+: c :: rest := List.cons_prefix_cons.mpr ⟨rfl, h2⟩
                exact hp ((isPrefixOf_eq _ _).mpr (h1.trans h3))
            show (sep.isPrefixOf (c :: p') || hasSub p' sep) = false
            rw [hpre, hps]
            rfl
          · exact ih rest.length (by omega) rest (Nat.le_refl _) p
              (hq ▸ List.mem_cons.mpr (Or.inr hmem'))

/-! ## Resolver claims -/

/-- First candidate model identifier. -/
def model1 : String := "gemini-2.0-flash-exp"

/-- Second candidate model identifier. -/
def model2 : String := "gemini-1.5-flash-latest"

/-- Third candidate model identifier. -/
def model3 : String := "gemini-1.5-flash"

/-- Fourth candidate model identifier. -/
def model4 : String := "gemini-1.5-pro-latest"

theorem models_to_try_eq : models_to_try = [model1, model2, model3, model4] := rfl

theorem loopRun_cons (attempt : String → Except (List Char) (List Char))
    (m : String) (rest : List String) (lastE : Option (List Char)) :
    loopRun attempt (m :: rest) lastE =
      match attempt m with
      | .ok r => ([m], .broke r)
      | .error e =>
        if isTransient e then
          (m :: (loopRun attempt rest (some e)).1, (loopRun attempt rest (some e)).2)
        else ([m], .raised e) := rfl

/-- C1: candidates are attempted strictly in the declared preference order;
a provider failing the first two candidates with transient signatures and
succeeding on the third causes exactly three attempts, in order, and the
third candidate's response is the one used. -/
theorem candidate_order_third_response
    (attempt : String → Except (List Char) (List Char)) (e1 e2 r : List Char)
    (h1 : attempt model1 = .error e1) (t1 : isTransient e1 = true)
    (h2 : attempt model2 = .error e2) (t2 : isTransient e2 = true)
    (h3 : attempt model3 = .ok r) :
    loopRun attempt models_to_try none = ([model1, model2, model3], .broke r)
    ∧ generateResolve attempt = .done r := by
  have hloop : loopRun attempt models_to_try none = ([model1, model2, model3], .broke r) := by
    rw [models_to_try_eq]
    simp [loopRun, h1, h2, h3, t1, t2]
  refine ⟨hloop, ?_⟩
  simp [generateResolve, hloop]

/-- Concrete provider for the preceding theorem: transient failures on the
first two candidates, success on the third. -/
def attemptThird : String → Except (List Char) (List Char) := fun m =>
  if m = model3 then .ok ("OK".toList) else .error ("503 overloaded".toList)

theorem candidate_order_third_response_witness :
    loopRun attemptThird models_to_try none
      = ([model1, model2, model3], .broke ("OK".toList))
    ∧ generateResolve attemptThird = .done ("OK".toList) :=
  candidate_order_third_response attemptThird ("503 overloaded".toList)
    ("503 overloaded".toList) ("OK".toList)
    rfl (by decide) rfl (by decide) rfl

/-- C2: a candidate failure whose text does not match the transient
allow-list is re-raised at once: the loop records exactly that one attempt
and no later candidate is tried; on the first candidate this makes the
whole resolver fatal with that error. -/
theorem nontransient_short_circuit
    (attempt : String → Except (List Char) (List Char)) (m : String)
    (rest : List String) (e : List Char)
    (h : attempt m = .error e) (ht : isTransient e = false) :
    (∀ lastE, loopRun attempt (m :: rest) lastE = ([m], .raised e))
    ∧ (m :: rest = models_to_try → generateResolve attempt = .fatal e) := by
  have hl : ∀ lastE, loopRun attempt (m :: rest) lastE = ([m], .raised e) := by
    intro lastE
    simp [loopRun, h, ht]
  refine ⟨hl, ?_⟩
  intro hm
  simp [generateResolve, ← hm, hl none]

/-- Concrete provider for the preceding theorem: a quota error (not in the
allow-list) on every candidate. -/
def attemptQuota : String → Except (List Char) (List Char) := fun _ =>
  .error ("429 quota exceeded for project".toList)

theorem nontransient_short_circuit_witness :
    (∀ lastE, loopRun attemptQuota (model1 :: [model2, model3, model4]) lastE
      = ([model1], .raised ("429 quota exceeded for project".toList)))
    ∧ (model1 :: [model2, model3, model4] = models_to_try →
        generateResolve attemptQuota = .fatal ("429 quota exceeded for project".toList)) :=
  nontransient_short_circuit attemptQuota model1 [model2, model3, model4]
    ("429 quota exceeded for project".toList) rfl (by decide)

/-- C3: when all four candidates fail with transient signatures, the
resolver raises the 503 whose detail is the fixed message followed by the
fourth candidate's error text (so the detail contains that text), and no
success result is produced. -/
theorem all_transient_503
    (attempt : String → Except (List Char) (List Char)) (e1 e2 e3 e4 : List Char)
    (h1 : attempt model1 = .error e1) (t1 : isTransient e1 = true)
    (h2 : attempt model2 = .error e2) (t2 : isTransient e2 = true)
    (h3 : attempt model3 = .error e3) (t3 : isTransient e3 = true)
    (h4 : attempt model4 = .error e4) (t4 : isTransient e4 = true) :
    generateResolve attempt = .unavailable503 (unavailMsg ++ e4)
    ∧ hasSub (unavailMsg ++ e4) e4 = true
    ∧ ∀ r, generateResolve attempt ≠ .done r := by
  have hloop : (loopRun attempt models_to_try none).2 = .exhausted (some e4) := by
    rw [models_to_try_eq]
    simp [loopRun, h1, h2, h3, h4, t1, t2, t3, t4]
  refine ⟨by simp [generateResolve, hloop], ?_, ?_⟩
  · exact hasSub_of_mid ⟨unavailMsg, [], by simp⟩
  · intro r hcon
    rw [generateResolve, hloop] at hcon
    exact ResolveOutcome.noConfusion hcon

/-- Concrete provider for the preceding theorem: model-not-found on every
candidate. -/
def attemptGone : String → Except (List Char) (List Char) := fun _ =>
  .error ("404 model not found".toList)

theorem all_transient_503_witness :
    generateResolve attemptGone
      = .unavailable503 (unavailMsg ++ ("404 model not found".toList))
    ∧ hasSub (unavailMsg ++ ("404 model not found".toList)) ("404 model not found".toList) = true
    ∧ ∀ r, generateResolve attemptGone ≠ .done r :=
  all_transient_503 attemptGone ("404 model not found".toList) ("404 model not found".toList)
    ("404 model not found".toList) ("404 model not found".toList)
    rfl (by decide) rfl (by decide) rfl (by decide) rfl (by decide)

/-- C6: a failing attempt moves on to the next candidate exactly when
`isTransient` holds of the error text, and `isTransient` holds exactly when
the lower-cased text contains one of the five fixed indicators. -/
theorem transient_classification
    (attempt : String → Except (List Char) (List Char)) (m : String)
    (rest : List String) (lastE : Option (List Char)) (e : List Char)
    (h : attempt m = .error e) :
    loopRun attempt (m :: rest) lastE =
      (if isTransient e then
        (m :: (loopRun attempt rest (some e)).1, (loopRun attempt rest (some e)).2)
      else ([m], .raised e))
    ∧ (isTransient e = true ↔ ∃ k ∈ transientKeywords, hasSub (pyLowerCh e) k = true) := by
  constructor
  · simp only [loopRun, h]
  · exact List.any_eq_true

/-- Concrete failing provider for the preceding theorem. -/
def attemptBusy : String → Except (List Char) (List Char) := fun _ =>
  .error ("Model is OVERLOADED, retry later".toList)

theorem transient_classification_witness :
    loopRun attemptBusy (model1 :: [model2]) none =
      (if isTransient ("Model is OVERLOADED, retry later".toList) then
        (model1 :: (loopRun attemptBusy [model2] (some ("Model is OVERLOADED, retry later".toList))).1,
          (loopRun attemptBusy [model2] (some ("Model is OVERLOADED, retry later".toList))).2)
      else ([model1], .raised ("Model is OVERLOADED, retry later".toList)))
    ∧ (isTransient ("Model is OVERLOADED, retry later".toList) = true ↔
        ∃ k ∈ transientKeywords,
          hasSub (pyLowerCh ("Model is OVERLOADED, retry later".toList)) k = true) :=
  transient_classification attemptBusy model1 [model2] none
    ("Model is OVERLOADED, retry later".toList) rfl

theorem loopRun_some_ne (attempt : String → Except (List Char) (List Char)) :
    ∀ (l : List String) (e : List Char), (loopRun attempt l (some e)).2 ≠ .exhausted none := by
  intro l
  induction l with
  | nil =>
    intro e h
    simp [loopRun] at h
  | cons m rest ih =>
    intro e
    rw [loopRun_cons]
    cases attempt m with
    | ok r => simp
    | error e' =>
      dsimp only
      by_cases ht : isTransient e'
      · rw [if_pos ht]
        exact ih e'
      · rw [if_neg ht]
        simp

/-- C10: with the fixed non-empty candidate list, the resolver always ends
in success, a propagated fatal error, or the 503 carrying the last
transient error; the 500 "Failed to generate content" branch is
unreachable. -/
theorem resolver_no_500 (attempt : String → Except (List Char) (List Char)) :
    ((∃ r, generateResolve attempt = .done r)
      ∨ (∃ e, generateResolve attempt = .fatal e)
      ∨ (∃ e, generateResolve attempt = .unavailable503 (unavailMsg ++ e)))
    ∧ generateResolve attempt ≠ .noContent500 := by
  have hne : (loopRun attempt models_to_try none).2 ≠ .exhausted none := by
    rw [models_to_try_eq, loopRun_cons]
    cases attempt model1 with
    | ok r => simp
    | error e =>
      dsimp only
      by_cases ht : isTransient e
      · rw [if_pos ht]
        exact loopRun_some_ne attempt [model2, model3, model4] e
      · rw [if_neg ht]
        simp
  cases hx : (loopRun attempt models_to_try none).2 with
  | broke r =>
    exact ⟨Or.inl ⟨r, by simp [generateResolve, hx]⟩, by simp [generateResolve, hx]⟩
  | raised e =>
    exact ⟨Or.inr (Or.inl ⟨e, by simp [generateResolve, hx]⟩), by simp [generateResolve, hx]⟩
  | exhausted oe =>
    cases oe with
    | none => exact absurd hx hne
    | some e =>
      exact ⟨Or.inr (Or.inr ⟨e, by simp [generateResolve, hx]⟩), by simp [generateResolve, hx]⟩

/-! ## Prompt construction claim -/

/-- C8: the user prompt is the fixed template with the style keyword, the
looked-up descriptor and the free-text prompt interpolated; the free-text
prompt appears verbatim and uncut between the two fixed surroundings, and
any style keyword outside the four-entry table yields the empty descriptor
with no error. -/
theorem prompt_template_verbatim (p s : String) :
    user_prompt p s = promptHead s ++ p ++ promptTail
    ∧ (s ≠ "modern" → s ≠ "minimal" → s ≠ "professional" → s ≠ "creative" →
        styleGet s = "") := by
  constructor
  · apply String.ext
    simp [user_prompt, promptHead, promptTail, String.data_append, List.append_assoc]
  · intro n1 n2 n3 n4
    have e1 : (s == "modern") = false := beq_eq_false_iff_ne.mpr n1
    have e2 : (s == "minimal") = false := beq_eq_false_iff_ne.mpr n2
    have e3 : (s == "professional") = false := beq_eq_false_iff_ne.mpr n3
    have e4 : (s == "creative") = false := beq_eq_false_iff_ne.mpr n4
    simp [styleGet, style_descriptions, List.lookup, e1, e2, e3, e4]

theorem prompt_template_verbatim_witness :
    user_prompt "a pet store" "futuristic"
      = promptHead "futuristic" ++ "a pet store" ++ promptTail
    ∧ styleGet "futuristic" = "" :=
  ⟨(prompt_template_verbatim "a pet store" "futuristic").1,
   (prompt_template_verbatim "a pet store" "futuristic").2
     (by decide) (by decide) (by decide) (by decide)⟩

/-! ## Extraction claims: degenerate fallback and totality -/

/-- C7: raw text with neither the marker pair nor any tagged fence passes
through unchanged: the whole text becomes the markup fragment and the
stylesheet fragment is empty. -/
theorem degenerate_raw_passthrough (content : List Char)
    (hm : (hasSub content htmlMarker && hasSub content cssMarker) = false)
    (hf1 : hasSub content fenceHtml = false)
    (hf2 : hasSub content fenceCss = false) :
    parseContent content = (content, []) := by
  simp [parseContent, hm, hf1, hf2]

theorem degenerate_raw_passthrough_witness :
    parseContent ("Sure, here is a website.".toList)
      = (("Sure, here is a website.".toList), []) :=
  degenerate_raw_passthrough ("Sure, here is a website.".toList)
    (by decide) (by decide) (by decide)

theorem pySplit_getzero (sep l : List Char) :
    (pySplitCh sep l)[0]? = some ((pySplitCh sep l).getD 0 []) := by
  cases hq : pySplitCh sep l with
  | nil => exact absurd hq (pySplitCh_ne_nil sep l)
  | cons p ps => simp

theorem pySplit_getone {sep : List Char} (hsep : sep ≠ []) {l : List Char}
    (h : hasSub l sep = true) :
    (pySplitCh sep l)[1]? = some ((pySplitCh sep l).getD 1 []) := by
  have hlen := pySplit_len2 hsep l h
  cases hq : pySplitCh sep l with
  | nil => exact absurd hq (pySplitCh_ne_nil sep l)
  | cons p ps =>
    cases ps with
    | nil =>
      rw [hq] at hlen
      simp at hlen
    | cons q ps' => simp

theorem fenceInnerChecked_some {tagged : List Char} (htag : tagged ≠ []) {sec : List Char}
    (h : hasSub sec tagged = true) :
    fenceInnerChecked tagged sec = some (fenceInner tagged sec) := by
  unfold fenceInnerChecked fenceInner
  rw [pySplit_getone htag h, Option.some_bind, pySplit_getzero, Option.some_bind]

theorem branchChecked_some (sec t1 t2 : List Char) (ht1 : t1 ≠ []) (ht2 : t2 ≠ []) :
    (if hasSub sec t1 then fenceInnerChecked t1 sec
     else if hasSub sec t2 then fenceInnerChecked t2 sec
     else some sec)
    = some (if hasSub sec t1 then fenceInner t1 sec
            else if hasSub sec t2 then fenceInner t2 sec
            else sec) := by
  by_cases h1 : hasSub sec t1 = true
  · rw [if_pos h1, if_pos h1]
    exact fenceInnerChecked_some ht1 h1
  · rw [if_neg h1, if_neg h1]
    by_cases h2 : hasSub sec t2 = true
    · rw [if_pos h2, if_pos h2]
      exact fenceInnerChecked_some ht2 h2
    · rw [if_neg h2, if_neg h2]

theorem optChecked_some (content tag : List Char) (htag : tag ≠ []) :
    (if hasSub content tag then fenceInnerChecked tag content else some [])
      = some (if hasSub content tag then fenceInner tag content else []) := by
  by_cases h : hasSub content tag = true
  · rw [if_pos h, if_pos h]
    exact fenceInnerChecked_some htag h
  · rw [if_neg h, if_neg h]

/-- C9: the extraction is total: the index-checked embedding (where a
Python `IndexError` would surface as `none`) always succeeds, and agrees
with the total extractor, so every `parts[0]`, `parts[1]`, `[...][0]` and
`[...][1]` taken by the code is in bounds and the surrounding handler is
unreachable for the extraction steps. -/
theorem extraction_never_fails (content : List Char) :
    parseContentChecked content = some (parseContent content) := by
  by_cases hb : (hasSub content htmlMarker && hasSub content cssMarker) = true
  · obtain ⟨hh, hc⟩ : hasSub content htmlMarker = true ∧ hasSub content cssMarker = true := by
      simpa using hb
    have h0 := pySplit_getzero cssMarker content
    have h1 := pySplit_getone (show cssMarker ≠ [] by decide) hc
    simp only [parseContentChecked, parseContent, parseParts, html_section, css_section]
    rw [if_pos hb, if_pos hb]
    simp only [parseParts] at h0 h1
    rw [h0, Option.some_bind, h1, Option.some_bind]
    rw [branchChecked_some _ _ _ (show fenceHtml ≠ [] by decide) (show fenceTag ≠ [] by decide),
      Option.some_bind,
      branchChecked_some _ _ _ (show fenceCss ≠ [] by decide) (show fenceTag ≠ [] by decide),
      Option.some_bind]
  · rw [parseContentChecked, parseContent, if_neg hb, if_neg hb]
    rw [optChecked_some content fenceHtml (by decide), Option.some_bind,
      optChecked_some content fenceCss (by decide), Option.some_bind]

/-! ## The two-part split claim -/

/-- C5, counterexample: with the marker `"CSS:"` occurring twice, the
second part used by the code (`parts[1]`) is the text between the first
and second occurrences, not everything after the first occurrence. -/
theorem split_second_part_counterexample :
    hasSub ("HTML:a CSS:x CSS:y".toList) htmlMarker = true
    ∧ hasSub ("HTML:a CSS:x CSS:y".toList) cssMarker = true
    ∧ hasSub (afterFirst cssMarker ("HTML:a CSS:x CSS:y".toList)) cssMarker = true
    ∧ (parseParts ("HTML:a CSS:x CSS:y".toList)).getD 1 []
        ≠ afterFirst cssMarker ("HTML:a CSS:x CSS:y".toList)
    ∧ css_section ("HTML:a CSS:x CSS:y".toList)
        ≠ stripCh (afterFirst cssMarker ("HTML:a CSS:x CSS:y".toList)) := by
  decide

/-- C5 as amended: when the text contains the stylesheet marker, the code
splits it at the occurrences of the marker and uses only the first two
pieces: the first part is everything before the first occurrence (and the
markup section is that part with `"HTML:"` removed and stripped), while
the second part is everything after the first occurrence only up to the
next occurrence of the marker, when one exists. -/
theorem split_parts_amended (content : List Char)
    (hcss : hasSub content cssMarker = true) :
    ∃ p0 p1 rest,
      content = p0 ++ cssMarker ++ p1 ++ rest
      ∧ (rest = [] ∨ cssMarker <+: rest)
      ∧ hasSub p0 cssMarker = false
      ∧ hasSub p1 cssMarker = false
      ∧ (parseParts content).getD 0 [] = p0
      ∧ (parseParts content).getD 1 [] = p1
      ∧ html_section content = stripCh (pyReplaceCh htmlMarker [] p0)
      ∧ css_section content = stripCh p1 := by
  have hsep : cssMarker ≠ [] := by decide
  have hlen := pySplit_len2 hsep content hcss
  have hjoin := pySplit_join hsep content
  have hclean := pySplit_clean hsep content
  cases hq : pySplitCh cssMarker content with
  | nil => exact absurd hq (pySplitCh_ne_nil cssMarker content)
  | cons p0 ps =>
    cases ps with
    | nil =>
      rw [hq] at hlen
      simp at hlen
    | cons p1 ps' =>
      rw [hq] at hjoin hclean
      have hc0 : hasSub p0 cssMarker = false := hclean p0 (by simp)
      have hc1 : hasSub p1 cssMarker = false := hclean p1 (by simp)
      have hparts : parseParts content = p0 :: p1 :: ps' := hq
      cases ps' with
      | nil =>
        refine ⟨p0, p1, [], ?_, Or.inl rfl, hc0, hc1, ?_, ?_, ?_, ?_⟩
        · have hj : joinSep cssMarker (p0 :: p1 :: ([] : List (List Char)))
              = p0 ++ cssMarker ++ p1 := rfl
          rw [hj] at hjoin
          rw [← hjoin]
          simp
        · rw [hparts]; rfl
        · rw [hparts]; rfl
        · rw [html_section, hparts]; rfl
        · rw [css_section, hparts]; rfl
      | cons q ps'' =>
        refine ⟨p0, p1, cssMarker ++ joinSep cssMarker (q :: ps''), ?_,
          Or.inr ⟨joinSep cssMarker (q :: ps''), rfl⟩, hc0, hc1, ?_, ?_, ?_, ?_⟩
        · have hj : joinSep cssMarker (p0 :: p1 :: q :: ps'')
              = p0 ++ cssMarker ++ (p1 ++ cssMarker ++ joinSep cssMarker (q :: ps'')) := rfl
          rw [hj] at hjoin
          rw [← hjoin]
          simp
        · rw [hparts]; rfl
        · rw [hparts]; rfl
        · rw [html_section, hparts]; rfl
        · rw [css_section, hparts]; rfl

theorem split_parts_amended_witness :
    ∃ p0 p1 rest,
      ("HTML:a CSS:x CSS:y".toList) = p0 ++ cssMarker ++ p1 ++ rest
      ∧ (rest = [] ∨ cssMarker <+: rest)
      ∧ hasSub p0 cssMarker = false
      ∧ hasSub p1 cssMarker = false
      ∧ (parseParts ("HTML:a CSS:x CSS:y".toList)).getD 0 [] = p0
      ∧ (parseParts ("HTML:a CSS:x CSS:y".toList)).getD 1 [] = p1
      ∧ html_section ("HTML:a CSS:x CSS:y".toList) = stripCh (pyReplaceCh htmlMarker [] p0)
      ∧ css_section ("HTML:a CSS:x CSS:y".toList) = stripCh p1 :=
  split_parts_amended ("HTML:a CSS:x CSS:y".toList) (by decide)

/-! ## Occurrence freedom in sandwiched texts -/

theorem hasSub_false_of_pre {l pat pat' : List Char} (hpp : pat' <+: pat)
    (h : hasSub l pat' = false) : hasSub l pat = false := by
  cases hx : hasSub l pat with
  | false => rfl
  | true =>
    exfalso
    rcases (hasSub_iff l pat).mp hx with ⟨t, ht, hp⟩
    have hx2 : hasSub l pat' = true := (hasSub_iff l pat').mpr ⟨t, ht, hpp.trans hp⟩
    rw [h] at hx2
    exact Bool.noConfusion hx2

/-- No occurrence of `sep` in `P ++ m ++ S` when none lies in any of the
three blocks and the straddles across both boundaries are excluded. -/
theorem hasSub_sandwich_false (sep P m S : List Char)
    (hP : hasSub P sep = false) (hm : hasSub m sep = false) (hS : hasSub S sep = false)
    (hkP : ∀ k, k < sep.length → 0 < k → ¬ ((sep.take k) <:+ P))
    (hkS : ∀ k, k < sep.length → 0 < k → ¬ ((sep.drop k) <+: S)) :
    hasSub (P ++ m ++ S) sep = false := by
  cases hx : hasSub (P ++ m ++ S) sep with
  | false => rfl
  | true =>
    exfalso
    have hx' : hasSub (P ++ (m ++ S)) sep = true := by
      rwa [← List.append_assoc]
    rcases hasSub_append_cases sep P (m ++ S) hx' with h1 | h1 | ⟨k, hk1, hk2, hk3, _⟩
    · rw [hP] at h1; exact Bool.noConfusion h1
    · rcases hasSub_append_cases sep m S h1 with h2 | h2 | ⟨k, hk1, hk2, _, hk4⟩
      · rw [hm] at h2; exact Bool.noConfusion h2
      · rw [hS] at h2; exact Bool.noConfusion h2
      · exact hkS k hk1 hk2 hk4
    · exact hkP k hk1 hk2 hk3

/-! ## Stripping the documented blocks -/

theorem stripCh_block (u v m : List Char) (c0 d0 : Char)
    (hc : pyIsSpace c0 = false) (hd : pyIsSpace d0 = false) :
    stripCh (('\n' :: c0 :: u) ++ m ++ (((v ++ [d0]) ++ ['\n']) ++ ['\n']))
      = (c0 :: u) ++ m ++ (v ++ [d0]) := by
  have e1 : ('\n' :: c0 :: u) ++ m ++ (((v ++ [d0]) ++ ['\n']) ++ ['\n'])
      = '\n' :: (((c0 :: u) ++ m ++ ((v ++ [d0]) ++ ['\n'])) ++ ['\n']) := by
    simp [List.append_assoc]
  rw [e1, stripCh_cons_ws (show pyIsSpace '\n' = true by decide), stripCh_append_ws
    (show pyIsSpace '\n' = true by decide)]
  have e2 : (c0 :: u) ++ m ++ ((v ++ [d0]) ++ ['\n'])
      = ((c0 :: u) ++ m ++ (v ++ [d0])) ++ ['\n'] := by
    simp [List.append_assoc]
  rw [e2, stripCh_append_ws (show pyIsSpace '\n' = true by decide)]
  have e3 : (c0 :: u) ++ m ++ (v ++ [d0]) = c0 :: ((u ++ m ++ v) ++ [d0]) := by
    simp [List.append_assoc]
  rw [e3, stripCh_solid hc hd]

theorem stripCh_block2 (u v m : List Char) (c0 d0 : Char)
    (hc : pyIsSpace c0 = false) (hd : pyIsSpace d0 = false) :
    stripCh (('\n' :: c0 :: u) ++ m ++ (v ++ [d0])) = (c0 :: u) ++ m ++ (v ++ [d0]) := by
  have e1 : ('\n' :: c0 :: u) ++ m ++ (v ++ [d0])
      = '\n' :: ((c0 :: u) ++ m ++ (v ++ [d0])) := by
    simp [List.append_assoc]
  rw [e1, stripCh_cons_ws (show pyIsSpace '\n' = true by decide)]
  have e3 : (c0 :: u) ++ m ++ (v ++ [d0]) = c0 :: ((u ++ m ++ v) ++ [d0]) := by
    simp [List.append_assoc]
  rw [e3, stripCh_solid hc hd]

theorem strip_fence_part (m : List Char) :
    stripCh ("\n".toList ++ m ++ "\n".toList) = stripCh m := by
  have e : ("\n".toList : List Char) ++ m ++ "\n".toList = ('\n' :: m) ++ ['\n'] := by
    simp
  rw [e, stripCh_append_ws (show pyIsSpace '\n' = true by decide),
    stripCh_cons_ws (show pyIsSpace '\n' = true by decide)]

/-! ## The documented-form round trip -/

/-- The text before the `CSS:` marker in the documented form. -/
def docHtmlPart (h : List Char) : List Char :=
  "HTML:\n```html\n".toList ++ h ++ "\n```\n\n".toList

/-- The text after the `CSS:` marker in the documented form. -/
def docCssPart (c : List Char) : List Char :=
  "\n```css\n".toList ++ c ++ "\n```".toList

theorem docForm_eq_parts (h c : List Char) :
    docForm h c = docHtmlPart h ++ cssMarker ++ docCssPart c := by
  unfold docForm docHtmlPart docCssPart
  have e : ("\n```\n\nCSS:\n```css\n".toList : List Char)
      = "\n```\n\n".toList ++ cssMarker ++ "\n```css\n".toList := by decide
  rw [e]
  simp [List.append_assoc]

theorem hasSub_docHtmlPart_css (h : List Char) (hh1 : hasSub h cssMarker = false) :
    hasSub (docHtmlPart h) cssMarker = false := by
  unfold docHtmlPart
  apply hasSub_sandwich_false
  · decide
  · exact hh1
  · decide
  · decide
  · decide

theorem hasSub_docCssPart_css (c : List Char) (hc1 : hasSub c cssMarker = false) :
    hasSub (docCssPart c) cssMarker = false := by
  unfold docCssPart
  apply hasSub_sandwich_false
  · decide
  · exact hc1
  · decide
  · decide
  · decide

theorem docHtmlPart_no_take (h : List Char) :
    ∀ k, k < cssMarker.length → 0 < k → ¬ ((cssMarker.take k) <:+ docHtmlPart h) := by
  intro k h1 h2 hsuf
  apply takeKill cssMarker ("HTML:\n```html\n".toList ++ h ++ "\n```\n".toList) '\n'
    (by decide) k h1 h2
  have e : docHtmlPart h = ("HTML:\n```html\n".toList ++ h ++ "\n```\n".toList) ++ ['\n'] := by
    unfold docHtmlPart
    have e2 : ("\n```\n\n".toList : List Char) = "\n```\n".toList ++ ['\n'] := by decide
    rw [e2]
    simp [List.append_assoc]
  rwa [e] at hsuf

theorem docForm_split (h c : List Char)
    (hh1 : hasSub h cssMarker = false) (hc1 : hasSub c cssMarker = false) :
    parseParts (docForm h c) = [docHtmlPart h, docCssPart c] := by
  have hsep : cssMarker ≠ [] := by decide
  rw [parseParts, docForm_eq_parts]
  rw [pySplit_boundary hsep _ _ (hasSub_docHtmlPart_css h hh1) (docHtmlPart_no_take h)]
  rw [pySplit_single hsep _ (hasSub_docCssPart_css c hc1)]

theorem docForm_html_section (h c : List Char)
    (hh1 : hasSub h cssMarker = false) (hc1 : hasSub c cssMarker = false)
    (hh3 : hasSub h htmlMarker = false) :
    html_section (docForm h c) = "```html\n".toList ++ h ++ "\n```".toList := by
  rw [html_section, docForm_split h c hh1 hc1]
  have hg : ([docHtmlPart h, docCssPart c].getD 0 []) = docHtmlPart h := rfl
  rw [hg]
  have hA : docHtmlPart h = htmlMarker ++ ("\n```html\n".toList ++ h ++ "\n```\n\n".toList) := by
    unfold docHtmlPart
    have e : ("HTML:\n```html\n".toList : List Char) = htmlMarker ++ "\n```html\n".toList := by
      decide
    rw [e]
    simp [List.append_assoc]
  rw [hA, pyReplace_at_old (show htmlMarker ≠ [] by decide)]
  have hR : hasSub ("\n```html\n".toList ++ h ++ "\n```\n\n".toList) htmlMarker = false := by
    apply hasSub_sandwich_false
    · decide
    · exact hh3
    · decide
    · decide
    · decide
  rw [pyReplace_single (show htmlMarker ≠ [] by decide) _ hR, List.nil_append]
  have e1 : ("\n```html\n".toList : List Char) = '\n' :: '`' :: "``html\n".toList := by decide
  have e2 : ("\n```\n\n".toList : List Char) = (("\n``".toList ++ ['`']) ++ ['\n']) ++ ['\n'] := by
    decide
  rw [e1, e2, stripCh_block ("``html\n".toList) ("\n``".toList) h '`' '`'
    (by decide) (by decide)]
  have e4 : ('`' :: "``html\n".toList : List Char) = "```html\n".toList := by decide
  have e5 : (("\n``".toList ++ ['`'] : List Char)) = "\n```".toList := by decide
  rw [e4, e5]

theorem docForm_css_section (h c : List Char)
    (hh1 : hasSub h cssMarker = false) (hc1 : hasSub c cssMarker = false) :
    css_section (docForm h c) = "```css\n".toList ++ c ++ "\n```".toList := by
  rw [css_section, docForm_split h c hh1 hc1]
  have hg : ([docHtmlPart h, docCssPart c].getD 1 []) = docCssPart c := rfl
  rw [hg]
  unfold docCssPart
  have e1 : ("\n```css\n".toList : List Char) = '\n' :: '`' :: "``css\n".toList := by decide
  have e2 : ("\n```".toList : List Char) = "\n``".toList ++ ['`'] := by decide
  rw [e1, e2, stripCh_block2 ("``css\n".toList) ("\n``".toList) c '`' '`'
    (by decide) (by decide)]
  have e4 : ('`' :: "``css\n".toList : List Char) = "```css\n".toList := by decide
  rw [e4]

theorem fenceInner_html (h : List Char) (hh2 : hasSub h fenceTag = false) :
    fenceInner fenceHtml ("```html\n".toList ++ h ++ "\n```".toList) = stripCh h := by
  have hfh : fenceHtml ≠ [] := by decide
  have hft : fenceTag ≠ [] := by decide
  have eX : ("```html\n".toList : List Char) ++ h ++ "\n```".toList
      = [] ++ fenceHtml ++ ("\n".toList ++ h ++ "\n```".toList) := by
    have e : ("```html\n".toList : List Char) = fenceHtml ++ "\n".toList := by decide
    rw [e]
    simp [List.append_assoc]
  rw [fenceInner, eX]
  rw [pySplit_boundary hfh [] _ (by decide) (by decide)]
  have hb1 : hasSub ("\n".toList ++ h ++ "\n```".toList) fenceHtml = false := by
    apply hasSub_sandwich_false
    · decide
    · exact hasSub_false_of_pre (show fenceTag <+: fenceHtml by decide) hh2
    · decide
    · decide
    · decide
  rw [pySplit_single hfh _ hb1]
  have hg : ((([] : List Char) :: [("\n".toList ++ h ++ "\n```".toList)]).getD 1 [])
      = "\n".toList ++ h ++ "\n```".toList := rfl
  rw [hg]
  have eb : ("\n".toList : List Char) ++ h ++ "\n```".toList
      = ("\n".toList ++ h ++ "\n".toList) ++ fenceTag ++ [] := by
    have e : ("\n```".toList : List Char) = "\n".toList ++ fenceTag := by decide
    rw [e]
    simp [List.append_assoc]
  rw [eb]
  have ha1 : hasSub ("\n".toList ++ h ++ "\n".toList) fenceTag = false := by
    apply hasSub_sandwich_false
    · decide
    · exact hh2
    · decide
    · decide
    · decide
  have hstr1 : ∀ k, k < fenceTag.length → 0 < k →
      ¬ ((fenceTag.take k) <:+ ("\n".toList ++ h ++ "\n".toList)) := by
    intro k h1 h2 hsuf
    apply takeKill fenceTag ("\n".toList ++ h) '\n' (by decide) k h1 h2
    have e : ("\n".toList : List Char) ++ h ++ "\n".toList = ("\n".toList ++ h) ++ ['\n'] := by
      simp
    rwa [e] at hsuf
  rw [pySplit_boundary hft _ _ ha1 hstr1]
  have hg0 : ((("\n".toList ++ h ++ "\n".toList) :: pySplitCh fenceTag []).getD 0 [])
      = "\n".toList ++ h ++ "\n".toList := rfl
  rw [hg0, strip_fence_part]

theorem fenceInner_css (c : List Char) (hc2 : hasSub c fenceTag = false) :
    fenceInner fenceCss ("```css\n".toList ++ c ++ "\n```".toList) = stripCh c := by
  have hfc : fenceCss ≠ [] := by decide
  have hft : fenceTag ≠ [] := by decide
  have eX : ("```css\n".toList : List Char) ++ c ++ "\n```".toList
      = [] ++ fenceCss ++ ("\n".toList ++ c ++ "\n```".toList) := by
    have e : ("```css\n".toList : List Char) = fenceCss ++ "\n".toList := by decide
    rw [e]
    simp [List.append_assoc]
  rw [fenceInner, eX]
  rw [pySplit_boundary hfc [] _ (by decide) (by decide)]
  have hb1 : hasSub ("\n".toList ++ c ++ "\n```".toList) fenceCss = false := by
    apply hasSub_sandwich_false
    · decide
    · exact hasSub_false_of_pre (show fenceTag <+: fenceCss by decide) hc2
    · decide
    · decide
    · decide
  rw [pySplit_single hfc _ hb1]
  have hg : ((([] : List Char) :: [("\n".toList ++ c ++ "\n```".toList)]).getD 1 [])
      = "\n".toList ++ c ++ "\n```".toList := rfl
  rw [hg]
  have eb : ("\n".toList : List Char) ++ c ++ "\n```".toList
      = ("\n".toList ++ c ++ "\n".toList) ++ fenceTag ++ [] := by
    have e : ("\n```".toList : List Char) = "\n".toList ++ fenceTag := by decide
    rw [e]
    simp [List.append_assoc]
  rw [eb]
  have ha1 : hasSub ("\n".toList ++ c ++ "\n".toList) fenceTag = false := by
    apply hasSub_sandwich_false
    · decide
    · exact hc2
    · decide
    · decide
    · decide
  have hstr1 : ∀ k, k < fenceTag.length → 0 < k →
      ¬ ((fenceTag.take k) <:+ ("\n".toList ++ c ++ "\n".toList)) := by
    intro k h1 h2 hsuf
    apply takeKill fenceTag ("\n".toList ++ c) '\n' (by decide) k h1 h2
    have e : ("\n".toList : List Char) ++ c ++ "\n".toList = ("\n".toList ++ c) ++ ['\n'] := by
      simp
    rwa [e] at hsuf
  rw [pySplit_boundary hft _ _ ha1 hstr1]
  have hg0 : ((("\n".toList ++ c ++ "\n".toList) :: pySplitCh fenceTag []).getD 0 [])
      = "\n".toList ++ c ++ "\n".toList := rfl
  rw [hg0, strip_fence_part]

/-- C4, round trip: on a raw text exactly of the documented two-marker,
two-fence form (with fence interiors that do not themselves contain the
`CSS:`/`HTML:` markers or a fence delimiter, as the form requires), the
extractor returns exactly the stripped interior of the html fence as the
markup fragment and the stripped interior of the css fence as the
stylesheet fragment. -/
theorem doc_roundtrip (h c : List Char)
    (hh1 : hasSub h cssMarker = false) (hh2 : hasSub h fenceTag = false)
    (hh3 : hasSub h htmlMarker = false)
    (hc1 : hasSub c cssMarker = false) (hc2 : hasSub c fenceTag = false) :
    parseContent (docForm h c) = (stripCh h, stripCh c) := by
  have hxsec := docForm_html_section h c hh1 hc1 hh3
  have hcsec := docForm_css_section h c hh1 hc1
  have h1 : hasSub (docForm h c) htmlMarker = true := by
    apply hasSub_of_mid
    refine ⟨[], "\n```html\n".toList ++ h
      ++ "\n```\n\nCSS:\n```css\n".toList ++ c ++ "\n```".toList, ?_⟩
    unfold docForm
    have e : ("HTML:\n```html\n".toList : List Char)
        = htmlMarker ++ "\n```html\n".toList := by decide
    rw [e]
    simp [List.append_assoc]
  have h2 : hasSub (docForm h c) cssMarker = true := by
    apply hasSub_of_mid
    exact ⟨docHtmlPart h, docCssPart c, (docForm_eq_parts h c).symm⟩
  have hcond : (hasSub (docForm h c) htmlMarker && hasSub (docForm h c) cssMarker) = true := by
    rw [h1, h2]
    rfl
  have hXf : hasSub ("```html\n".toList ++ h ++ "\n```".toList) fenceHtml = true := by
    apply hasSub_of_pre
    have e : ("```html\n".toList : List Char) = fenceHtml ++ "\n".toList := by decide
    rw [e]
    exact ⟨"\n".toList ++ h ++ "\n```".toList, by simp [List.append_assoc]⟩
  have hYf : hasSub ("```css\n".toList ++ c ++ "\n```".toList) fenceCss = true := by
    apply hasSub_of_pre
    have e : ("```css\n".toList : List Char) = fenceCss ++ "\n".toList := by decide
    rw [e]
    exact ⟨"\n".toList ++ c ++ "\n```".toList, by simp [List.append_assoc]⟩
  simp only [parseContent]
  rw [if_pos hcond, hxsec, hcsec, if_pos hXf, if_pos hYf,
    fenceInner_html h hh2, fenceInner_css c hc2]

theorem doc_roundtrip_witness :
    parseContent (docForm ("<p>hello</p>".toList) ("body color: teal".toList))
      = (stripCh ("<p>hello</p>".toList), stripCh ("body color: teal".toList)) :=
  doc_roundtrip ("<p>hello</p>".toList) ("body color: teal".toList)
    (by decide) (by decide) (by decide) (by decide) (by decide)
